import Mathlib

/-
Verification of the S2EdgeQuery engine (s2edgequery.cc): candidate edge
collection for a query edge against a hierarchical shape index.

Shallow embedding choices:
* coordinates are exact rationals (the C++ uses doubles; all logic here is
  order/interpolation based);
* the external geometry helpers (GetFaceSegments, ClipToFace) are not part of
  the repository source, so their outputs (per-face 2D segments, the clipped
  endpoints) are taken as inputs of the embedded functions;
* the external index/cell classes (S2ShapeIndex, S2CellId, S2PaddedCell) are
  modelled from the spec where noted; the index is a list of stored cells,
  each a cell id plus per-shape clipped edge lists, and the cursor operation
  Seek is the first stored entry with id at least the sought value;
* the recursion of S2EdgeQuery::GetCells is fuel-indexed, the fuel standing
  for the remaining depth of the (depth 30) cell hierarchy.
-/

attribute [local semireducible] Rat.add Rat.mul Rat.inv Rat.sub Rat.ofScientific

namespace S2

/-- Maximum depth of the cell hierarchy (30 levels below the face cells). -/
def D : ℕ := 30

/-- Closed interval on one axis, mirroring R1Interval (lo, hi coordinates). -/
structure R1Interval where
  lo : ℚ
  hi : ℚ
deriving DecidableEq

/-- Interval emptiness, mirroring R1Interval::is_empty: lo strictly above hi. -/
def R1Interval.isEmpty (a : R1Interval) : Bool := decide (a.hi < a.lo)

/-- Interval containment, mirroring R1Interval::Contains(R1Interval):
an empty argument is always contained. -/
def R1Interval.containsI (a b : R1Interval) : Bool :=
  if b.isEmpty then true else decide (a.lo ≤ b.lo) && decide (b.hi ≤ a.hi)

/-- Mirrors R1Interval::Intersects. -/
def R1Interval.intersects (a b : R1Interval) : Bool :=
  decide (b.lo ≤ a.hi) && decide (a.lo ≤ b.hi)

/-- Mirrors R1Interval::ClampPoint. -/
def R1Interval.clampPoint (a : R1Interval) (p : ℚ) : ℚ := max a.lo (min a.hi p)

/-- Interval endpoint update: endpoint 0 is lo, endpoint 1 is hi, mirroring
the operator[] writes in S2EdgeQuery::SplitBound. -/
def R1Interval.setE (a : R1Interval) (e : ℕ) (x : ℚ) : R1Interval :=
  if e = 0 then ⟨x, a.hi⟩ else ⟨a.lo, x⟩

/-- Point in 2D face coordinates. -/
abbrev R2Point := ℚ × ℚ

/-- Axis-aligned 2D rectangle, mirroring R2Rect (x = u axis, y = v axis). -/
structure R2Rect where
  x : R1Interval
  y : R1Interval
deriving DecidableEq

/-- Rectangle emptiness: empty on either axis. -/
def R2Rect.isEmpty (r : R2Rect) : Bool := r.x.isEmpty || r.y.isEmpty

/-- Mirrors R2Rect::Contains(R2Rect). -/
def R2Rect.containsRect (a b : R2Rect) : Bool := a.x.containsI b.x && a.y.containsI b.y

/-- Mirrors R2Rect::Intersects(R2Rect). -/
def R2Rect.intersects (a b : R2Rect) : Bool := a.x.intersects b.x && a.y.intersects b.y

/-- Mirrors R2Rect::FromPointPair. -/
def R2Rect.fromPointPair (p q : R2Point) : R2Rect :=
  ⟨⟨min p.1 q.1, max p.1 q.1⟩, ⟨min p.2 q.2, max p.2 q.2⟩⟩

/-- Modelled from the spec: a cell identity (S2CellId is not in src/).  A cell
is one of the 6 cube faces refined by a path of child quadrant positions;
the spec requires a total id order in which the descendants of a cell form a
contiguous range. -/
structure CellId where
  face : Fin 6
  path : List (Fin 4)
deriving DecidableEq

/-- Value of a quadrant path: position k contributes with weight 4 ^ (d - 1 - k),
so that all cells of one face embed into a common numeric scale. -/
def pathVal : List (Fin 4) → ℕ → ℕ
  | [], _ => 0
  | q :: rest, d => q.val * 4 ^ (d - 1) + pathVal rest (d - 1)

/-- Modelled from the spec: the numeric cell id realising the total order
(least significant set bit scale, as in S2CellId). -/
def idNum (c : CellId) : ℕ :=
  c.face.val * (2 * 4 ^ D) + 2 * pathVal c.path D + 4 ^ (D - c.path.length)

/-- Modelled from the spec: first id of the descendant range (range_min). -/
def rangeMinN (c : CellId) : ℕ :=
  c.face.val * (2 * 4 ^ D) + 2 * pathVal c.path D + 1

/-- Modelled from the spec: last id of the descendant range (range_max). -/
def rangeMaxN (c : CellId) : ℕ :=
  c.face.val * (2 * 4 ^ D) + 2 * pathVal c.path D + 2 * 4 ^ (D - c.path.length) - 1

/-- Child cell at quadrant position p. -/
def childCell (c : CellId) (p : Fin 4) : CellId := ⟨c.face, c.path ++ [p]⟩

/-- Per-cell contents of one stored index cell: for each shape present, the
shape id together with its clipped edge-index list (S2ShapeIndexCell). -/
abbrev Cell := List (ℕ × List ℕ)

/-- Stored index cell: cell id plus contents. -/
abbrev Entry := CellId × Cell

/-- Mirrors S2ShapeIndexCell::find_clipped. -/
def findClipped (c : Cell) (shapeId : ℕ) : Option (List ℕ) :=
  (c.find? (fun p => decide (p.1 = shapeId))).map (fun p => p.2)

/-- Clipped edge list of a shape in a cell ([] when the shape is absent). -/
def clippedEdges (c : Cell) (shapeId : ℕ) : List ℕ := (findClipped c shapeId).getD []

/-- Modelled from the spec: the shape index enumerates stored cells (in id
order) together with the edge counts of its shapes (shape id s has
shapes[s] edges); num_shape_ids is the length of shapes. -/
structure SIndex where
  cells : List Entry
  shapes : List ℕ

/-- Modelled from the spec: S2ShapeIndex cursor Seek, the first stored cell
whose id is at least the sought id. -/
def seek (cells : List Entry) (t : ℕ) : Option Entry :=
  cells.find? (fun e => decide (t ≤ idNum e.1))

/-- Quadrant position of the (i, j) child, i selecting the u half and j the
v half.  Modelled from the spec (the source-side Hilbert ij-to-position
table is external): any injective assignment realises the claims. -/
def posIJ (i j : Fin 2) : Fin 4 := ⟨2 * i.val + j.val, by omega⟩

/-- Modelled from the spec: S2PaddedCell with padding 0, a cell id together
with its 2D bound. -/
structure PaddedCell where
  cell : CellId
  bound : R2Rect

/-- Modelled from the spec: the quadrant bound of a child padded cell. -/
def childBound (b : R2Rect) (i j : Fin 2) : R2Rect :=
  ⟨if i.val = 0 then ⟨b.x.lo, (b.x.lo + b.x.hi) / 2⟩ else ⟨(b.x.lo + b.x.hi) / 2, b.x.hi⟩,
   if j.val = 0 then ⟨b.y.lo, (b.y.lo + b.y.hi) / 2⟩ else ⟨(b.y.lo + b.y.hi) / 2, b.y.hi⟩⟩

/-- Child padded cell at quadrant (i, j), mirroring S2PaddedCell(pcell, i, j). -/
def childPC (p : PaddedCell) (i j : Fin 2) : PaddedCell :=
  ⟨childCell p.cell (posIJ i j), childBound p.bound i j⟩

/-- Center of a padded cell, mirroring pcell.middle().lo() with padding 0. -/
def center (p : PaddedCell) : R2Point :=
  ((p.bound.x.lo + p.bound.x.hi) / 2, (p.bound.y.lo + p.bound.y.hi) / 2)

/-- Face cell as a padded cell (uv bound of a face is the full square). -/
def faceCellPC (f : Fin 6) : PaddedCell := ⟨⟨f, []⟩, ⟨⟨-1, 1⟩, ⟨-1, 1⟩⟩⟩

/-- Padded cell of an arbitrary cell id, descending through quadrant bounds. -/
def pcellOfId (c : CellId) : PaddedCell :=
  c.path.foldl
    (fun p q => childPC p ⟨q.val / 2, by omega⟩ ⟨q.val % 2, by omega⟩)
    (faceCellPC c.face)

/-- Mirrors S2EdgeUtil::InterpolateDouble: the value at x of the linear map
sending a to a1 and b to b1. -/
def interpolateDouble (x a b a1 b1 : ℚ) : ℚ := a1 + (b1 - a1) * ((x - a) / (b - a))

/-- Mirrors S2EdgeQuery::SplitBound: update child 0 at endpoints (1 - u_end,
1 - v_end) and child 1 at endpoints (u_end, v_end) with the split point (u, v). -/
def splitBound (eb : R2Rect) (uEnd : ℕ) (u : ℚ) (vEnd : ℕ) (v : ℚ) : R2Rect × R2Rect :=
  (⟨eb.x.setE (1 - uEnd) u, eb.y.setE (1 - vEnd) v⟩,
   ⟨eb.x.setE uEnd u, eb.y.setE vEnd v⟩)

/-- Diagonal selector of the segment ab, mirroring the diag computation in
S2EdgeQuery::SplitUBound: 0 for positive slope, 1 for negative slope. -/
def diagOf (ab : R2Point × R2Point) : ℕ :=
  if (decide (ab.1.1 > ab.2.1)) != (decide (ab.1.2 > ab.2.2)) then 1 else 0

/-- Mirrors S2EdgeQuery::SplitUBound. -/
def splitUBound (ab : R2Point × R2Point) (eb : R2Rect) (u : ℚ) : R2Rect × R2Rect :=
  let v := eb.y.clampPoint (interpolateDouble u ab.1.1 ab.2.1 ab.1.2 ab.2.2)
  splitBound eb 0 u (diagOf ab) v

/-- Mirrors S2EdgeQuery::SplitVBound. -/
def splitVBound (ab : R2Point × R2Point) (eb : R2Rect) (v : ℚ) : R2Rect × R2Rect :=
  let u := eb.x.clampPoint (interpolateDouble v ab.1.2 ab.2.2 ab.1.1 ab.2.1)
  splitBound eb (diagOf ab) u 0 v

/-- Number of children S2EdgeQuery::ClipVAxis recurses into for an edge bound
against the v coordinate of the cell center: one when the bound lies on one
side, two when it straddles the center. -/
def clipVVisits (eb : R2Rect) (v : ℚ) : ℕ :=
  if eb.y.hi < v then 1 else if v ≤ eb.y.lo then 1 else 2

/-- Common head of S2EdgeQuery::GetCells(pcell, edge_bound): seek the cursor
to range_min; prune when nothing is stored under pcell; record the stored
cell when its id equals pcell; otherwise continue with kont. -/
def getCellsStep (idx : List Entry) (pcell : PaddedCell) (kont : Entry → List Entry) :
    List Entry :=
  match seek idx (rangeMinN pcell.cell) with
  | none => []
  | some e =>
    if rangeMaxN pcell.cell < idNum e.1 then []
    else if idNum e.1 = idNum pcell.cell then [e]
    else kont e

/-- Mirrors S2EdgeQuery::ClipVAxis, with the recursive call passed in as rec:
clip the edge bound against the v center and recurse into the lower child,
the upper child, or (after SplitVBound) both. -/
def clipVAxisF (rec : PaddedCell → R2Rect → List Entry) (ab : R2Point × R2Point)
    (eb : R2Rect) (v : ℚ) (i : Fin 2) (pcell : PaddedCell) : List Entry :=
  if eb.y.hi < v then rec (childPC pcell i 0) eb
  else if v ≤ eb.y.lo then rec (childPC pcell i 1) eb
  else
    let cb := splitVBound ab eb v
    rec (childPC pcell i 0) cb.1 ++ rec (childPC pcell i 1) cb.2

/-- Mirrors the recursive S2EdgeQuery::GetCells(pcell, edge_bound), collecting
the stored index cells under pcell intersected by the edge bound.  The fuel
argument bounds the recursion depth (at most 30 in the source); at exhausted
fuel only the seek/record head runs. -/
def getCellsRec (idx : List Entry) (ab : R2Point × R2Point) :
    ℕ → PaddedCell → R2Rect → List Entry :=
  Nat.rec (motive := fun _ => PaddedCell → R2Rect → List Entry)
    (fun pcell _eb => getCellsStep idx pcell (fun _ => []))
    (fun _fuel rec pcell eb =>
      getCellsStep idx pcell (fun _ =>
        let c := center pcell
        if eb.x.hi < c.1 then clipVAxisF rec ab eb c.2 0 pcell
        else if c.1 ≤ eb.x.lo then clipVAxisF rec ab eb c.2 1 pcell
        else
          let cb := splitUBound ab eb c.1
          if eb.y.hi < c.2 then
            rec (childPC pcell 0 0) cb.1 ++ rec (childPC pcell 1 0) cb.2
          else if c.2 ≤ eb.y.lo then
            rec (childPC pcell 0 1) cb.1 ++ rec (childPC pcell 1 1) cb.2
          else
            clipVAxisF rec ab cb.1 c.2 0 pcell ++ clipVAxisF rec ab cb.2 c.2 1 pcell))

/-- Relation of the edge root cell to the stored cells, mirroring
S2ShapeIndex::CellRelation (INDEXED / SUBDIVIDED / DISJOINT). -/
inductive CellRelation where
  | indexedAt (e : Entry)
  | subdivided
  | absent

/-- Modelled from the spec: S2ShapeIndex::Locate (not in src/): INDEXED when
a stored cell is the target or an ancestor of it, SUBDIVIDED when stored
cells are descendants of the target, otherwise disjoint. -/
def locate (cells : List Entry) (t : CellId) : CellRelation :=
  match cells.find? (fun e => decide (e.1.face = t.face) && e.1.path.isPrefixOf t.path) with
  | some e => .indexedAt e
  | none =>
    if cells.any (fun e => decide (e.1.face = t.face) && t.path.isPrefixOf e.1.path)
    then .subdivided else .absent

/-- Modelled from the spec: S2PaddedCell::ShrinkToFit (not in src/), the
shrink-to-fit walk to the smallest cell whose region contains the bound. -/
def shrinkToFit : ℕ → PaddedCell → R2Rect → CellId
  | 0, p, _ => p.cell
  | fuel + 1, p, eb =>
    let c := center p
    if eb.x.hi < c.1 then
      if eb.y.hi < c.2 then shrinkToFit fuel (childPC p 0 0) eb
      else if c.2 ≤ eb.y.lo then shrinkToFit fuel (childPC p 0 1) eb
      else p.cell
    else if c.1 ≤ eb.x.lo then
      if eb.y.hi < c.2 then shrinkToFit fuel (childPC p 1 0) eb
      else if c.2 ≤ eb.y.lo then shrinkToFit fuel (childPC p 1 1) eb
      else p.cell
    else p.cell

/-- Face segment of the query edge: the clipped 2D endpoints on one face,
the output of the external S2EdgeUtil::GetFaceSegments taken as input. -/
structure Segment where
  a : R2Point
  b : R2Point
  face : Fin 6

/-- Per-segment part of S2EdgeQuery::GetCells(a, b): bound the segment, shrink
to the edge root cell, locate it in the index, and record one stored cell,
recurse, or contribute nothing. -/
def getCellsSeg (idx : SIndex) (seg : Segment) : List Entry :=
  let eb := R2Rect.fromPointPair seg.a seg.b
  let root := shrinkToFit D (faceCellPC seg.face) eb
  match locate idx.cells root with
  | .indexedAt e => [e]
  | .subdivided => getCellsRec idx.cells (seg.a, seg.b) (D - root.path.length) (pcellOfId root) eb
  | .absent => []

/-- Mirrors S2EdgeQuery::GetCells(a, b): the stored cells intersected by the
query edge, accumulated over its face segments. -/
def getCellsTop (idx : SIndex) (segs : List Segment) : List Entry :=
  (segs.map (getCellsSeg idx)).flatten

/-- Internally computed cell list of the root-seeded query
S2EdgeQuery::GetCells(a, b, root, cells): clip the edge to the root face
(the clip outcome of the external ClipToFace is the clip argument), bound
it, and recurse from the root when the bounds intersect. -/
def getCellsFromRoot (idx : List Entry) (clip : Option (R2Point × R2Point))
    (root : PaddedCell) : List Entry :=
  match clip with
  | none => []
  | some ab =>
    let eb := R2Rect.fromPointPair ab.1 ab.2
    if root.bound.intersects eb then
      getCellsRec idx ab (D - root.cell.path.length) root eb
    else []

/-- Mirrors the root-seeded S2EdgeQuery::GetCells(a, b, root, cells) including
its handling of the caller-supplied output list: the output is assigned only
when the computed list is non-empty. -/
def getCellsRootQ (idx : List Entry) (clip : Option (R2Point × R2Point))
    (root : PaddedCell) (out : List Entry) : Bool × List Entry :=
  let cs := getCellsFromRoot idx clip root
  if cs.isEmpty then (false, out) else (true, cs)

/-- Collapse adjacent duplicates, mirroring std::unique followed by erase. -/
def dedupAdjacent : List ℕ → List ℕ
  | [] => []
  | [a] => [a]
  | a :: b :: rest => if a = b then dedupAdjacent (b :: rest) else a :: dedupAdjacent (b :: rest)

/-- Edge gathering loop of the single-shape S2EdgeQuery::GetCandidates:
concatenate the clipped edge lists of the shape over the discovered cells. -/
def gatherShape (cells : List Entry) (shapeId : ℕ) : List ℕ :=
  (cells.map (fun e => clippedEdges e.2 shapeId)).flatten

/-- Brute-force threshold of the single-shape query (kMaxBruteForceEdges). -/
def kMaxBruteForceEdges : ℕ := 27

/-- Indexed path of the single-shape S2EdgeQuery::GetCandidates: discover
cells, gather the clipped edges of the shape, sort and collapse duplicates
when more than one cell contributed, and report emptiness. -/
def getCandidatesViaIndex (idx : SIndex) (shapeId : ℕ) (segs : List Segment) :
    Bool × List ℕ :=
  let cells := getCellsTop idx segs
  if cells.isEmpty then (false, [])
  else
    let edges := gatherShape cells shapeId
    let edges2 := if 1 < cells.length then dedupAdjacent (List.insertionSort (· ≤ ·) edges)
                  else edges
    (!edges2.isEmpty, edges2)

/-- Mirrors the single-shape S2EdgeQuery::GetCandidates(a, b, shape, edges):
for at most kMaxBruteForceEdges edges return every index directly, otherwise
take the indexed path.  The shape is given by its id and edge count; the face
segments of the query edge are the segs input. -/
def getCandidates (idx : SIndex) (shapeId numEdges : ℕ) (segs : List Segment) :
    Bool × List ℕ :=
  if numEdges ≤ kMaxBruteForceEdges then (true, List.range numEdges)
  else getCandidatesViaIndex idx shapeId segs

/-- EdgeMap of the multi-shape query: shape id to edge-index list. -/
abbrev EdgeMap := List (ℕ × List ℕ)

/-- Mirrors operator[] record appending on the EdgeMap: extend the entry of
the shape, creating it when absent. -/
def mapAppend (m : EdgeMap) (k : ℕ) (es : List ℕ) : EdgeMap :=
  if m.any (fun e => decide (e.1 = k)) then
    m.map (fun e => if e.1 = k then (e.1, e.2 ++ es) else e)
  else m ++ [(k, es)]

/-- Mirrors the multi-shape S2EdgeQuery::GetCandidates(a, b, edge_map).  For a
single-shape index: insert the entry of shape 0, clear the map only when it
held other entries, and delegate to the single-shape query whose result
replaces that entry.  Otherwise: discover cells, clear the map, gather every
clipped shape of every cell, sort and collapse duplicates per shape when more
than one cell contributed, and report map emptiness. -/
def getCandidatesMap (idx : SIndex) (segs : List Segment) (em : EdgeMap) :
    Bool × EdgeMap :=
  if idx.shapes.length = 1 then
    let m1 := if em.any (fun e => decide (e.1 = 0)) then em else em ++ [(0, [])]
    let m2 := if m1.length ≠ 1 then [(0, [])] else m1
    let r := getCandidates idx 0 (idx.shapes.getD 0 0) segs
    (r.1, m2.map (fun e => if e.1 = 0 then (0, r.2) else e))
  else
    let cells := getCellsTop idx segs
    if cells.isEmpty then (false, [])
    else
      let em2 := cells.foldl (fun m e => e.2.foldl (fun m p => mapAppend m p.1 p.2) m) []
      let em3 := if 1 < cells.length then
                   em2.map (fun p => (p.1, dedupAdjacent (List.insertionSort (· ≤ ·) p.2)))
                 else em2
      (!em3.isEmpty, em3)

section BasicLemmas

theorem list_isEmpty_false_iff {α : Type} (l : List α) : l.isEmpty = false ↔ l ≠ [] := by
  cases l <;> simp

end BasicLemmas

/-- C2: for every shape whose edge count is at most 27, the single-shape query
returns the full index list [0, count) unconditionally, regardless of the
query edge geometry and without consulting the index; for every shape with 28
or more edges it takes the indexed cell-discovery path. -/
theorem getCandidates_bruteforce_boundary (idx : SIndex) (shapeId numEdges : ℕ)
    (segs : List Segment) :
    (numEdges ≤ 27 → getCandidates idx shapeId numEdges segs = (true, List.range numEdges)) ∧
    (28 ≤ numEdges → getCandidates idx shapeId numEdges segs =
      getCandidatesViaIndex idx shapeId segs) := by
  constructor
  · intro h
    simp [getCandidates, kMaxBruteForceEdges, h]
  · intro h
    have hn : ¬ numEdges ≤ kMaxBruteForceEdges := by
      simp only [kMaxBruteForceEdges]; omega
    simp [getCandidates, hn]

theorem getCandidates_bruteforce_boundary_witness :
    getCandidates ⟨[], []⟩ 0 27 [] = (true, List.range 27) ∧
    getCandidates ⟨[], []⟩ 0 28 [] = getCandidatesViaIndex ⟨[], []⟩ 0 [] :=
  ⟨(getCandidates_bruteforce_boundary ⟨[], []⟩ 0 27 []).1 (by decide),
   (getCandidates_bruteforce_boundary ⟨[], []⟩ 0 28 []).2 (by decide)⟩

/-- C3 counterexample: a zero-edge shape takes the brute-force path and the
single-shape query returns true together with an empty edge list, so the
claimed equivalence between a true return and a non-empty result fails. -/
theorem getCandidates_true_on_zero_edges :
    (getCandidates ⟨[], []⟩ 0 0 []).1 = true ∧ (getCandidates ⟨[], []⟩ 0 0 []).2 = [] :=
  ⟨rfl, rfl⟩

/-- C3 (amended): for every query edge and shape with at least one edge, the
single-shape query returns true if and only if the resulting edge-index list
is non-empty; a zero-edge shape is the single exception, returning true with
an empty list on the brute-force path. -/
theorem getCandidates_true_iff_nonempty (idx : SIndex) (shapeId numEdges : ℕ)
    (segs : List Segment) (h : numEdges ≠ 0) :
    (getCandidates idx shapeId numEdges segs).1 = true ↔
      (getCandidates idx shapeId numEdges segs).2 ≠ [] := by
  by_cases hb : numEdges ≤ kMaxBruteForceEdges
  · simp [getCandidates, hb, List.range_eq_nil, h]
  · simp only [getCandidates, if_neg hb, getCandidatesViaIndex]
    cases hc : (getCellsTop idx segs).isEmpty
    · simp only [Bool.false_eq_true, if_false]
      constructor
      · intro ht
        simp only [Bool.not_eq_true'] at ht ⊢
        exact (list_isEmpty_false_iff _).mp ht
      · intro ht
        simp only [Bool.not_eq_true']
        exact (list_isEmpty_false_iff _).mpr ht
    · simp

theorem getCandidates_true_iff_nonempty_witness :
    (getCandidates ⟨[], []⟩ 0 1 []).1 = true ↔ (getCandidates ⟨[], []⟩ 0 1 []).2 ≠ [] :=
  getCandidates_true_iff_nonempty ⟨[], []⟩ 0 1 [] (by decide)

/-- C4 counterexample: an index holding exactly one shape with 28 edges and no
stored cells reachable from the query makes the multi-shape query return
false while the mapping is left with one (empty-sequence) entry, so returning
true is not equivalent to the mapping being non-empty. -/
theorem getCandidatesMap_false_with_nonempty_map :
    (getCandidatesMap ⟨[], [28]⟩ [] []).1 = false ∧
    (getCandidatesMap ⟨[], [28]⟩ [] []).2 ≠ [] :=
  ⟨rfl, by decide⟩

/-- C4 (amended): for every query edge and every index not holding exactly one
shape, the multi-shape query returns true if and only if the resulting
shape-to-edge-list mapping is non-empty; for a single-shape index the return
value is the single-shape result, which can be false while the mapping keeps
its one entry. -/
theorem getCandidatesMap_true_iff_nonempty (idx : SIndex) (segs : List Segment)
    (em : EdgeMap) (h : idx.shapes.length ≠ 1) :
    (getCandidatesMap idx segs em).1 = true ↔ (getCandidatesMap idx segs em).2 ≠ [] := by
  simp only [getCandidatesMap, if_neg h]
  cases hc : (getCellsTop idx segs).isEmpty
  · simp only [Bool.false_eq_true, if_false]
    constructor
    · intro ht
      simp only [Bool.not_eq_true'] at ht ⊢
      exact (list_isEmpty_false_iff _).mp ht
    · intro ht
      simp only [Bool.not_eq_true']
      exact (list_isEmpty_false_iff _).mpr ht
  · simp

theorem getCandidatesMap_true_iff_nonempty_witness :
    (getCandidatesMap ⟨[], []⟩ [] []).1 = true ↔ (getCandidatesMap ⟨[], []⟩ [] []).2 ≠ [] :=
  getCandidatesMap_true_iff_nonempty ⟨[], []⟩ [] [] (by decide)

theorem singleShape_map_eq (idx : SIndex) (segs : List Segment) (em : EdgeMap)
    (h : idx.shapes.length = 1) :
    (getCandidatesMap idx segs em).2 =
      [(0, (getCandidates idx 0 (idx.shapes.getD 0 0) segs).2)] := by
  simp only [getCandidatesMap, if_pos h]
  by_cases h0 : em.any (fun e => decide (e.1 = 0))
  · simp only [if_pos h0]
    by_cases hl : em.length ≠ 1
    · simp [if_pos hl]
    · simp only [if_neg hl]
      push_neg at hl
      cases em with
      | nil => cases hl
      | cons e t =>
        cases t with
        | nil =>
          simp only [List.any_cons, List.any_nil, Bool.or_false, decide_eq_true_eq] at h0
          simp [h0]
        | cons f t2 =>
          simp only [List.length_cons] at hl
          omega
  · simp only [if_neg h0]
    match em with
    | [] => simp
    | f :: t =>
      have hlen : ((f :: t) ++ [((0 : ℕ), ([] : List ℕ))]).length ≠ 1 := by
        simp
      simp [if_pos hlen]

/-- C7: for every multi-shape query against an index holding exactly one
shape, and any prior contents of the mapping, the call leaves the mapping
with exactly one entry keyed by that shape whose edge sequence is the current
call's single-shape result (fully replaced, never accumulated), and returns
the single-shape return value; in particular the mapping stays non-empty
with a single empty sequence when there are no candidates. -/
theorem getCandidatesMap_singleShape_replaces (idx : SIndex) (segs : List Segment)
    (em : EdgeMap) (h : idx.shapes.length = 1) :
    (getCandidatesMap idx segs em).2 =
      [(0, (getCandidates idx 0 (idx.shapes.getD 0 0) segs).2)] ∧
    (getCandidatesMap idx segs em).1 =
      (getCandidates idx 0 (idx.shapes.getD 0 0) segs).1 := by
  refine ⟨singleShape_map_eq idx segs em h, ?_⟩
  simp only [getCandidatesMap, if_pos h]

theorem getCandidatesMap_singleShape_replaces_witness :
    (getCandidatesMap ⟨[], [5]⟩ [] [(3, [9])]).2 =
      [(0, (getCandidates ⟨[], [5]⟩ 0 ((SIndex.mk [] [5]).shapes.getD 0 0) []).2)] ∧
    (getCandidatesMap ⟨[], [5]⟩ [] [(3, [9])]).1 =
      (getCandidates ⟨[], [5]⟩ 0 ((SIndex.mk [] [5]).shapes.getD 0 0) []).1 :=
  getCandidatesMap_singleShape_replaces ⟨[], [5]⟩ [] [(3, [9])] (by decide)

/-- C5 counterexample: with a root that the edge does not intersect at all
(here the clip to the root face fails) the root-seeded query returns false
but leaves the caller-supplied output list untouched, so the output is not
empty when it was non-empty before the call. -/
theorem getCellsRootQ_stale_output :
    (getCellsRootQ [] none (faceCellPC 0) [(⟨0, []⟩, [])]).1 = false ∧
    (getCellsRootQ [] none (faceCellPC 0) [(⟨0, []⟩, [])]).2 ≠ [] :=
  ⟨rfl, by decide⟩

/-- C5 (amended): for every query edge and every supplied root padded cell, if
the root does not intersect the edge (the edge does not clip onto the root's
face, or its bound misses the root's bound, or no stored cell under the root
is touched), the query returns false and leaves the caller's output cell list
unmodified (so the output is empty exactly when it was passed in empty). -/
theorem getCellsRootQ_no_intersection (idx : List Entry)
    (clip : Option (R2Point × R2Point)) (root : PaddedCell) (out : List Entry)
    (h : clip = none ∨
      (∃ ab, clip = some ab ∧
        root.bound.intersects (R2Rect.fromPointPair ab.1 ab.2) = false) ∨
      getCellsFromRoot idx clip root = []) :
    getCellsRootQ idx clip root out = (false, out) := by
  have hcs : getCellsFromRoot idx clip root = [] := by
    rcases h with h | ⟨ab, hab, hint⟩ | h
    · simp [getCellsFromRoot, h]
    · simp [getCellsFromRoot, hab, hint]
    · exact h
  simp [getCellsRootQ, hcs]

theorem getCellsRootQ_no_intersection_witness :
    getCellsRootQ [] none (faceCellPC 0) [] = (false, []) :=
  getCellsRootQ_no_intersection [] none (faceCellPC 0) [] (Or.inl rfl)

section SplitBoundLemmas

theorem R1Interval.isEmpty_false_iff (a : R1Interval) : a.isEmpty = false ↔ a.lo ≤ a.hi := by
  simp [R1Interval.isEmpty]

theorem R1Interval.clampPoint_mem (a : R1Interval) (p : ℚ) (h : a.lo ≤ a.hi) :
    a.lo ≤ a.clampPoint p ∧ a.clampPoint p ≤ a.hi :=
  ⟨le_max_left _ _, max_le h (min_le_left _ _)⟩

theorem R1Interval.setE_sound (a : R1Interval) (e : ℕ) (x : ℚ)
    (h1 : a.lo ≤ x) (h2 : x ≤ a.hi) :
    (a.setE e x).isEmpty = false ∧ a.containsI (a.setE e x) = true := by
  have hle : a.lo ≤ a.hi := le_trans h1 h2
  unfold R1Interval.setE
  split
  · constructor
    · simp [R1Interval.isEmpty_false_iff, h2]
    · unfold R1Interval.containsI
      rw [if_neg]
      · simp [h1]
      · simp [R1Interval.isEmpty_false_iff, h2]
  · constructor
    · simp [R1Interval.isEmpty_false_iff, h1]
    · unfold R1Interval.containsI
      rw [if_neg]
      · simp [h2]
      · simp [R1Interval.isEmpty_false_iff, h1]

theorem splitBound_sound (eb : R2Rect) (uEnd vEnd : ℕ) (u v : ℚ)
    (hu1 : eb.x.lo ≤ u) (hu2 : u ≤ eb.x.hi) (hv1 : eb.y.lo ≤ v) (hv2 : v ≤ eb.y.hi) :
    (splitBound eb uEnd u vEnd v).1.isEmpty = false ∧
    (splitBound eb uEnd u vEnd v).2.isEmpty = false ∧
    eb.containsRect (splitBound eb uEnd u vEnd v).1 = true ∧
    eb.containsRect (splitBound eb uEnd u vEnd v).2 = true := by
  have hx0 := R1Interval.setE_sound eb.x (1 - uEnd) u hu1 hu2
  have hx1 := R1Interval.setE_sound eb.x uEnd u hu1 hu2
  have hy0 := R1Interval.setE_sound eb.y (1 - vEnd) v hv1 hv2
  have hy1 := R1Interval.setE_sound eb.y vEnd v hv1 hv2
  unfold splitBound R2Rect.isEmpty R2Rect.containsRect
  simp [hx0.1, hx0.2, hx1.1, hx1.2, hy0.1, hy0.2, hy1.1, hy1.2]

end SplitBoundLemmas

/-- C8: in every recursive subdivision step, each child bound produced by
splitting an edge bound at a cell center (SplitUBound and SplitVBound via
SplitBound) is non-empty and contained in the parent edge bound, so the
development-time assertions in SplitBound can never fire for well-formed
inputs: the interpolated split coordinate, clamped to the bound's range on
the other axis, always lies within the parent bound.  The hypotheses are the
conditions holding at every call site: a non-empty parent bound straddling
the split coordinate. -/
theorem splitBound_assertions_hold (ab : R2Point × R2Point) (eb : R2Rect) (cu cv : ℚ)
    (hne : eb.isEmpty = false) :
    (eb.x.lo < cu → cu ≤ eb.x.hi →
      (splitUBound ab eb cu).1.isEmpty = false ∧
      (splitUBound ab eb cu).2.isEmpty = false ∧
      eb.containsRect (splitUBound ab eb cu).1 = true ∧
      eb.containsRect (splitUBound ab eb cu).2 = true) ∧
    (eb.y.lo < cv → cv ≤ eb.y.hi →
      (splitVBound ab eb cv).1.isEmpty = false ∧
      (splitVBound ab eb cv).2.isEmpty = false ∧
      eb.containsRect (splitVBound ab eb cv).1 = true ∧
      eb.containsRect (splitVBound ab eb cv).2 = true) := by
  have hx : eb.x.lo ≤ eb.x.hi := by
    have := hne
    unfold R2Rect.isEmpty at this
    simp only [Bool.or_eq_false_iff] at this
    exact (R1Interval.isEmpty_false_iff _).mp this.1
  have hy : eb.y.lo ≤ eb.y.hi := by
    have := hne
    unfold R2Rect.isEmpty at this
    simp only [Bool.or_eq_false_iff] at this
    exact (R1Interval.isEmpty_false_iff _).mp this.2
  constructor
  · intro h1 h2
    have hv := R1Interval.clampPoint_mem eb.y
      (interpolateDouble cu ab.1.1 ab.2.1 ab.1.2 ab.2.2) hy
    exact splitBound_sound eb 0 (diagOf ab) cu _ (le_of_lt h1) h2 hv.1 hv.2
  · intro h1 h2
    have hu := R1Interval.clampPoint_mem eb.x
      (interpolateDouble cv ab.1.2 ab.2.2 ab.1.1 ab.2.1) hx
    exact splitBound_sound eb (diagOf ab) 0 _ cv hu.1 hu.2 (le_of_lt h1) h2

theorem splitBound_assertions_hold_witness :
    ((⟨⟨-1, 1⟩, ⟨-1, 1⟩⟩ : R2Rect).x.lo < 0 ∧
      (splitUBound ((-1, -1), (1, 1)) ⟨⟨-1, 1⟩, ⟨-1, 1⟩⟩ 0).1.isEmpty = false) ∧
    (splitVBound ((-1, -1), (1, 1)) ⟨⟨-1, 1⟩, ⟨-1, 1⟩⟩ 0).1.isEmpty = false :=
  ⟨⟨by decide,
    ((splitBound_assertions_hold ((-1, -1), (1, 1)) ⟨⟨-1, 1⟩, ⟨-1, 1⟩⟩ 0 0 (by decide)).1
      (by decide) (by decide)).1⟩,
   ((splitBound_assertions_hold ((-1, -1), (1, 1)) ⟨⟨-1, 1⟩, ⟨-1, 1⟩⟩ 0 0 (by decide)).2
      (by decide) (by decide)).1⟩

/-- C9: in every recursion step where the edge bound straddles the cell center
on both axes, at most three of the four child quadrants are recursed into:
after SplitUBound cuts the bound into two strips at the u center, the numbers
of children ClipVAxis visits for the two strips sum to at most three, because
both strips share the single interpolated v value as an endpoint and so at
most one of them straddles the v center. -/
theorem clipV_visits_at_most_three (ab : R2Point × R2Point) (eb : R2Rect) (cu cv : ℚ)
    (hu1 : eb.x.lo < cu) (hu2 : cu ≤ eb.x.hi)
    (hv1 : eb.y.lo < cv) (hv2 : cv ≤ eb.y.hi) :
    clipVVisits (splitUBound ab eb cu).1 cv + clipVVisits (splitUBound ab eb cu).2 cv ≤ 3 := by
  unfold splitUBound splitBound clipVVisits
  by_cases hd : (decide (ab.1.1 > ab.2.1)) != (decide (ab.1.2 > ab.2.2))
  · simp only [diagOf, hd, if_true]
    unfold R1Interval.setE
    norm_num
    split_ifs <;> first | omega | (exfalso; linarith)
  · simp only [diagOf, hd, if_false]
    unfold R1Interval.setE
    norm_num
    split_ifs <;> first | omega | (exfalso; linarith)

section DedupLemmas

theorem mem_dedupAdjacent : ∀ (l : List ℕ) (a : ℕ), a ∈ dedupAdjacent l ↔ a ∈ l
  | [], a => by simp [dedupAdjacent]
  | [b], a => by simp [dedupAdjacent]
  | b :: c :: rest, a => by
    unfold dedupAdjacent
    split
    · next h =>
      rw [mem_dedupAdjacent (c :: rest) a]
      subst h
      simp
    · simp [mem_dedupAdjacent (c :: rest) a]

theorem dedupAdjacent_cons_head : ∀ (b : ℕ) (t : List ℕ),
    ∃ ys, dedupAdjacent (b :: t) = b :: ys
  | b, [] => ⟨[], rfl⟩
  | b, c :: rest => by
    unfold dedupAdjacent
    split
    · next h =>
      obtain ⟨ys, hys⟩ := dedupAdjacent_cons_head c rest
      exact ⟨ys, by rw [hys, h]⟩
    · exact ⟨dedupAdjacent (c :: rest), rfl⟩

theorem chain_dedupAdjacent : ∀ (l : List ℕ),
    l.Sorted (· ≤ ·) → (dedupAdjacent l).Chain' (· < ·)
  | [], _ => by simp [dedupAdjacent]
  | [a], _ => by simp [dedupAdjacent]
  | a :: b :: t, h => by
    have ht : (b :: t).Sorted (· ≤ ·) := (List.sorted_cons.mp h).2
    have hab : a ≤ b := (List.sorted_cons.mp h).1 b (by simp)
    have ih := chain_dedupAdjacent (b :: t) ht
    unfold dedupAdjacent
    split
    · exact ih
    · next hne =>
      obtain ⟨ys, hys⟩ := dedupAdjacent_cons_head b t
      rw [hys] at ih ⊢
      exact List.chain'_cons.mpr ⟨lt_of_le_of_ne hab hne, ih⟩

theorem one_lt_length_of_two_mem {α : Type} {l : List α} {x y : α}
    (hx : x ∈ l) (hy : y ∈ l) (hne : x ≠ y) : 1 < l.length := by
  cases l with
  | nil => cases hx
  | cons a t =>
    cases t with
    | nil =>
      simp only [List.mem_singleton] at hx hy
      exact absurd (hx.trans hy.symm) hne
    | cons b t2 =>
      simp only [List.length_cons]
      omega

theorem chain_sortDedup (l : List ℕ) :
    (dedupAdjacent (List.insertionSort (· ≤ ·) l)).Chain' (· < ·) :=
  chain_dedupAdjacent _ (List.sorted_insertionSort _ l)

theorem mem_sortDedup {l : List ℕ} {a : ℕ} (h : a ∈ l) :
    a ∈ dedupAdjacent (List.insertionSort (· ≤ ·) l) :=
  (mem_dedupAdjacent _ a).mpr (((List.perm_insertionSort (· ≤ ·) l).mem_iff).mpr h)

theorem chain_getCandidates (idx : SIndex) (shapeId numEdges : ℕ) (segs : List Segment)
    (hlen : 1 < (getCellsTop idx segs).length) :
    ((getCandidates idx shapeId numEdges segs).2).Chain' (· < ·) := by
  by_cases hb : numEdges ≤ kMaxBruteForceEdges
  · simp only [getCandidates, if_pos hb]
    exact (List.pairwise_lt_range numEdges).chain'
  · simp only [getCandidates, if_neg hb, getCandidatesViaIndex]
    have hne : (getCellsTop idx segs).isEmpty = false := by
      cases hcells : getCellsTop idx segs
      · rw [hcells] at hlen; simp at hlen
      · rfl
    rw [if_neg (by simp [hne])]
    simp only [if_pos hlen]
    exact chain_sortDedup _

end DedupLemmas

/-- C1: soundness of candidate collection: for every query edge and every
indexed shape edge whose cell assignment intersects the set of index cells
touched by the query edge (some touched cell lists that edge index for the
shape), the single-shape query's returned index list contains that edge's
index; the result is a superset of all true intersections (false positives
permitted, no false negatives).  The hypothesis hwf is index well-formedness:
clipped edge indices are valid edge indices of the shape. -/
theorem getCandidates_sound (idx : SIndex) (shapeId numEdges : ℕ) (segs : List Segment)
    (e : Entry) (k : ℕ)
    (hwf : ∀ j ∈ gatherShape (getCellsTop idx segs) shapeId, j < numEdges)
    (he : e ∈ getCellsTop idx segs)
    (hk : k ∈ clippedEdges e.2 shapeId) :
    k ∈ (getCandidates idx shapeId numEdges segs).2 := by
  have hmem : k ∈ gatherShape (getCellsTop idx segs) shapeId := by
    unfold gatherShape
    exact List.mem_flatten.mpr ⟨clippedEdges e.2 shapeId, List.mem_map.mpr ⟨e, he, rfl⟩, hk⟩
  by_cases hb : numEdges ≤ kMaxBruteForceEdges
  · simp only [getCandidates, if_pos hb]
    simpa [List.mem_range] using hwf k hmem
  · simp only [getCandidates, if_neg hb, getCandidatesViaIndex]
    have hne : (getCellsTop idx segs).isEmpty = false := by
      cases hcells : getCellsTop idx segs
      · rw [hcells] at he; cases he
      · rfl
    rw [if_neg (by simp [hne])]
    by_cases hlen : 1 < (getCellsTop idx segs).length
    · simp only [if_pos hlen]
      exact mem_sortDedup hmem
    · simp only [if_neg hlen]
      exact hmem

theorem getCandidates_sound_witness :
    5 ∈ (getCandidates ⟨[(⟨0, []⟩, [(0, [5])])], [28]⟩ 0 28
          [⟨(-1/2, -1/2), (1/2, 1/2), 0⟩]).2 :=
  getCandidates_sound ⟨[(⟨0, []⟩, [(0, [5])])], [28]⟩ 0 28
    [⟨(-1/2, -1/2), (1/2, 1/2), 0⟩] (⟨0, []⟩, [(0, [5])]) 5
    (by decide) (by decide) (by decide)

/-- C6: dedup correctness: for every query in which more than one index cell
contributed edges (two distinct touched cells with a non-empty contribution),
the returned edge-index sequence is strictly ascending with no duplicates;
this holds for the single-shape query and for each shape's sequence in the
multi-shape query. -/
theorem candidates_strictly_ascending (idx : SIndex) (segs : List Segment) :
    (∀ (shapeId numEdges : ℕ) (c1 c2 : Entry),
      c1 ∈ getCellsTop idx segs → c2 ∈ getCellsTop idx segs → c1 ≠ c2 →
      clippedEdges c1.2 shapeId ≠ [] → clippedEdges c2.2 shapeId ≠ [] →
      ((getCandidates idx shapeId numEdges segs).2).Chain' (· < ·)) ∧
    (∀ (em : EdgeMap) (c1 c2 : Entry),
      c1 ∈ getCellsTop idx segs → c2 ∈ getCellsTop idx segs → c1 ≠ c2 →
      c1.2 ≠ [] → c2.2 ≠ [] →
      ∀ p ∈ (getCandidatesMap idx segs em).2, (p.2).Chain' (· < ·)) := by
  constructor
  · intro shapeId numEdges c1 c2 h1 h2 hne _ _
    exact chain_getCandidates idx shapeId numEdges segs (one_lt_length_of_two_mem h1 h2 hne)
  · intro em c1 c2 h1 h2 hcne _ _ p hp
    have hlen : 1 < (getCellsTop idx segs).length := one_lt_length_of_two_mem h1 h2 hcne
    by_cases hone : idx.shapes.length = 1
    · rw [singleShape_map_eq idx segs em hone] at hp
      have hchain := chain_getCandidates idx 0 (idx.shapes.getD 0 0) segs hlen
      rcases List.mem_singleton.mp hp with rfl
      exact hchain
    · simp only [getCandidatesMap, if_neg hone] at hp
      have hcells : (getCellsTop idx segs).isEmpty = false := by
        cases hc : getCellsTop idx segs
        · rw [hc] at hlen; simp at hlen
        · rfl
      rw [if_neg (by simp [hcells])] at hp
      rw [if_pos hlen] at hp
      rcases List.mem_map.mp hp with ⟨q, _, hq⟩
      rw [← hq]
      exact chain_sortDedup _

theorem candidates_strictly_ascending_witness :
    ((getCandidates ⟨[(⟨0, []⟩, [(0, [3])]), (⟨1, []⟩, [(0, [1])])], [28]⟩ 0 28
        [⟨(-1, -1), (1, 1), 0⟩, ⟨(-1, -1), (1, 1), 1⟩]).2).Chain' (· < ·) :=
  (candidates_strictly_ascending ⟨[(⟨0, []⟩, [(0, [3])]), (⟨1, []⟩, [(0, [1])])], [28]⟩
      [⟨(-1, -1), (1, 1), 0⟩, ⟨(-1, -1), (1, 1), 1⟩]).1 0 28
    (⟨0, []⟩, [(0, [3])]) (⟨1, []⟩, [(0, [1])])
    (by decide) (by decide) (by decide) (by decide) (by decide)

theorem clipV_visits_at_most_three_witness :
    clipVVisits (splitUBound ((-1, -1), (1, 1)) ⟨⟨-1, 1⟩, ⟨-1, 1⟩⟩ 0).1 0 +
      clipVVisits (splitUBound ((-1, -1), (1, 1)) ⟨⟨-1, 1⟩, ⟨-1, 1⟩⟩ 0).2 0 ≤ 3 :=
  clipV_visits_at_most_three ((-1, -1), (1, 1)) ⟨⟨-1, 1⟩, ⟨-1, 1⟩⟩ 0 0
    (by decide) (by decide) (by decide) (by decide)

section CellRangeLemmas

theorem getCellsRec_zero (idx : List Entry) (ab : R2Point × R2Point)
    (pcell : PaddedCell) (eb : R2Rect) :
    getCellsRec idx ab 0 pcell eb = getCellsStep idx pcell (fun _ => []) := rfl

theorem getCellsRec_succ (idx : List Entry) (ab : R2Point × R2Point) (fuel : ℕ)
    (pcell : PaddedCell) (eb : R2Rect) :
    getCellsRec idx ab (fuel + 1) pcell eb =
      getCellsStep idx pcell (fun _ =>
        let c := center pcell
        if eb.x.hi < c.1 then clipVAxisF (getCellsRec idx ab fuel) ab eb c.2 0 pcell
        else if c.1 ≤ eb.x.lo then clipVAxisF (getCellsRec idx ab fuel) ab eb c.2 1 pcell
        else
          let cb := splitUBound ab eb c.1
          if eb.y.hi < c.2 then
            getCellsRec idx ab fuel (childPC pcell 0 0) cb.1 ++
              getCellsRec idx ab fuel (childPC pcell 1 0) cb.2
          else if c.2 ≤ eb.y.lo then
            getCellsRec idx ab fuel (childPC pcell 0 1) cb.1 ++
              getCellsRec idx ab fuel (childPC pcell 1 1) cb.2
          else
            clipVAxisF (getCellsRec idx ab fuel) ab cb.1 c.2 0 pcell ++
              clipVAxisF (getCellsRec idx ab fuel) ab cb.2 c.2 1 pcell) := rfl

theorem mem_clipVAxisF {rec : PaddedCell → R2Rect → List Entry}
    {ab : R2Point × R2Point} {eb : R2Rect} {v : ℚ} {i : Fin 2} {pcell : PaddedCell}
    {x : Entry} (h : x ∈ clipVAxisF rec ab eb v i pcell) :
    (∃ b, x ∈ rec (childPC pcell i 0) b) ∨ (∃ b, x ∈ rec (childPC pcell i 1) b) := by
  unfold clipVAxisF at h
  split at h
  · exact Or.inl ⟨eb, h⟩
  · split at h
    · exact Or.inr ⟨eb, h⟩
    · rcases List.mem_append.mp h with h | h
      · exact Or.inl ⟨_, h⟩
      · exact Or.inr ⟨_, h⟩

theorem mem_getCellsStep {idx : List Entry} {pcell : PaddedCell}
    {kont : Entry → List Entry} {x : Entry} (h : x ∈ getCellsStep idx pcell kont) :
    ∃ e, seek idx (rangeMinN pcell.cell) = some e ∧
      rangeMinN pcell.cell ≤ idNum e.1 ∧ idNum e.1 ≤ rangeMaxN pcell.cell ∧
      (x = e ∨ x ∈ kont e) := by
  unfold getCellsStep at h
  cases hs : seek idx (rangeMinN pcell.cell) with
  | none =>
    rw [hs] at h
    dsimp only at h
    cases h
  | some e =>
    rw [hs] at h
    dsimp only at h
    have hge : rangeMinN pcell.cell ≤ idNum e.1 := by
      unfold seek at hs
      have := List.find?_some hs
      simpa using this
    split at h
    · cases h
    · next hle =>
      have hle2 : idNum e.1 ≤ rangeMaxN pcell.cell := Nat.le_of_not_lt hle
      split at h
      · exact ⟨e, rfl, hge, hle2, Or.inl (List.mem_singleton.mp h)⟩
      · exact ⟨e, rfl, hge, hle2, Or.inr h⟩

theorem pathVal_append (l : List (Fin 4)) (p : Fin 4) (d : ℕ) :
    pathVal (l ++ [p]) d = pathVal l d + p.val * 4 ^ (d - l.length - 1) := by
  induction l generalizing d with
  | nil => simp [pathVal]
  | cons q t ih =>
    have hc : (q :: t) ++ [p] = q :: (t ++ [p]) := rfl
    rw [hc]
    simp only [pathVal, List.length_cons]
    rw [ih (d - 1)]
    have he : d - 1 - t.length - 1 = d - (t.length + 1) - 1 := by omega
    rw [he]
    ring

theorem rangeMinN_le_rangeMaxN (c : CellId) : rangeMinN c ≤ rangeMaxN c := by
  unfold rangeMinN rangeMaxN
  have hK : 0 < 4 ^ (D - c.path.length) := pow_pos (by norm_num) _
  omega

theorem child_rangeMin_le (c : CellId) (p : Fin 4) (hl : c.path.length < D) :
    rangeMinN c ≤ rangeMinN (childCell c p) := by
  unfold rangeMinN childCell
  simp only [List.length_append, List.length_singleton]
  rw [pathVal_append]
  omega

theorem child_rangeMax_le (c : CellId) (p : Fin 4) (hl : c.path.length < D) :
    rangeMaxN (childCell c p) ≤ rangeMaxN c := by
  unfold rangeMaxN childCell
  simp only [List.length_append, List.length_singleton]
  rw [pathVal_append]
  have he : D - (c.path.length + 1) = D - c.path.length - 1 := by omega
  rw [he]
  have he2 : 4 ^ (D - c.path.length) = 4 * 4 ^ (D - c.path.length - 1) := by
    rw [← pow_succ']
    congr 1
    omega
  rw [he2]
  have hp : p.val ≤ 3 := by omega
  have hK : 0 < 4 ^ (D - c.path.length - 1) := pow_pos (by norm_num) _
  have hmul : p.val * 4 ^ (D - c.path.length - 1) ≤ 3 * 4 ^ (D - c.path.length - 1) :=
    Nat.mul_le_mul_right _ hp
  omega

theorem child_range_disjoint (c : CellId) (p q : Fin 4) (hpq : p.val < q.val)
    (hl : c.path.length < D) :
    rangeMaxN (childCell c p) < rangeMinN (childCell c q) := by
  unfold rangeMaxN rangeMinN childCell
  simp only [List.length_append, List.length_singleton]
  rw [pathVal_append, pathVal_append]
  have he : D - (c.path.length + 1) = D - c.path.length - 1 := by omega
  rw [he]
  have hK : 0 < 4 ^ (D - c.path.length - 1) := pow_pos (by norm_num) _
  have hmul : (p.val + 1) * 4 ^ (D - c.path.length - 1) ≤
      q.val * 4 ^ (D - c.path.length - 1) :=
    Nat.mul_le_mul_right _ (by omega)
  rw [add_mul, one_mul] at hmul
  omega

theorem posIJ_lt (i : Fin 2) : (posIJ i 0).val < (posIJ i 1).val := by
  simp [posIJ]

theorem posIJ_cross (j j2 : Fin 2) : (posIJ 0 j).val < (posIJ 1 j2).val := by
  simp [posIJ]
  omega

theorem getCellsRec_key_bounds (idx : List Entry) (ab : R2Point × R2Point) :
    ∀ (fuel : ℕ) (pcell : PaddedCell) (eb : R2Rect) (x : Entry),
      x ∈ getCellsRec idx ab fuel pcell eb →
      pcell.cell.path.length + fuel ≤ D →
      rangeMinN pcell.cell ≤ idNum x.1 ∧ idNum x.1 ≤ rangeMaxN pcell.cell := by
  intro fuel
  induction fuel with
  | zero =>
    intro pcell eb x hx _
    rw [getCellsRec_zero] at hx
    obtain ⟨e, _, h1, h2, h3⟩ := mem_getCellsStep hx
    rcases h3 with rfl | h3
    · exact ⟨h1, h2⟩
    · cases h3
  | succ fuel ih =>
    intro pcell eb x hx hl
    rw [getCellsRec_succ] at hx
    obtain ⟨e, _, h1, h2, h3⟩ := mem_getCellsStep hx
    rcases h3 with rfl | h3
    · exact ⟨h1, h2⟩
    · have hlc : pcell.cell.path.length < D := by omega
      have hchild : ∃ (i j : Fin 2) (b : R2Rect),
          x ∈ getCellsRec idx ab fuel (childPC pcell i j) b := by
        dsimp only at h3
        split at h3
        · rcases mem_clipVAxisF h3 with ⟨b, hb⟩ | ⟨b, hb⟩
          exacts [⟨0, 0, b, hb⟩, ⟨0, 1, b, hb⟩]
        · split at h3
          · rcases mem_clipVAxisF h3 with ⟨b, hb⟩ | ⟨b, hb⟩
            exacts [⟨1, 0, b, hb⟩, ⟨1, 1, b, hb⟩]
          · split at h3
            · rcases List.mem_append.mp h3 with h | h
              exacts [⟨0, 0, _, h⟩, ⟨1, 0, _, h⟩]
            · split at h3
              · rcases List.mem_append.mp h3 with h | h
                exacts [⟨0, 1, _, h⟩, ⟨1, 1, _, h⟩]
              · rcases List.mem_append.mp h3 with h | h
                · rcases mem_clipVAxisF h with ⟨b, hb⟩ | ⟨b, hb⟩
                  exacts [⟨0, 0, b, hb⟩, ⟨0, 1, b, hb⟩]
                · rcases mem_clipVAxisF h with ⟨b, hb⟩ | ⟨b, hb⟩
                  exacts [⟨1, 0, b, hb⟩, ⟨1, 1, b, hb⟩]
      obtain ⟨i, j, b, hb⟩ := hchild
      have hlen2 : (childPC pcell i j).cell.path.length + fuel ≤ D := by
        simp only [childPC, childCell, List.length_append, List.length_singleton]
        omega
      have hrange := ih (childPC pcell i j) b x hb hlen2
      simp only [childPC] at hrange
      exact ⟨le_trans (child_rangeMin_le pcell.cell (posIJ i j) hlc) hrange.1,
             le_trans hrange.2 (child_rangeMax_le pcell.cell (posIJ i j) hlc)⟩

theorem clipVAxisF_key_bounds (idx : List Entry) (ab : R2Point × R2Point) (fuel : ℕ)
    (pcell : PaddedCell) (eb : R2Rect) (v : ℚ) (i : Fin 2) (x : Entry)
    (hl : pcell.cell.path.length + (fuel + 1) ≤ D)
    (hx : x ∈ clipVAxisF (getCellsRec idx ab fuel) ab eb v i pcell) :
    rangeMinN (childCell pcell.cell (posIJ i 0)) ≤ idNum x.1 ∧
    idNum x.1 ≤ rangeMaxN (childCell pcell.cell (posIJ i 1)) := by
  have hlc : pcell.cell.path.length < D := by omega
  have hdis := child_range_disjoint pcell.cell (posIJ i 0) (posIJ i 1) (posIJ_lt i) hlc
  rcases mem_clipVAxisF hx with ⟨b, hb⟩ | ⟨b, hb⟩
  · have hr := getCellsRec_key_bounds idx ab fuel (childPC pcell i 0) b x hb
      (by simp only [childPC, childCell, List.length_append, List.length_singleton]; omega)
    simp only [childPC] at hr
    refine ⟨hr.1, le_trans hr.2 ?_⟩
    exact le_trans (le_of_lt hdis) (rangeMinN_le_rangeMaxN _)
  · have hr := getCellsRec_key_bounds idx ab fuel (childPC pcell i 1) b x hb
      (by simp only [childPC, childCell, List.length_append, List.length_singleton]; omega)
    simp only [childPC] at hr
    refine ⟨le_trans ?_ hr.1, hr.2⟩
    exact le_trans (rangeMinN_le_rangeMaxN _) (le_of_lt hdis)

theorem clipVAxisF_pairwise (idx : List Entry) (ab : R2Point × R2Point) (fuel : ℕ)
    (pcell : PaddedCell) (eb : R2Rect) (v : ℚ) (i : Fin 2)
    (hl : pcell.cell.path.length + (fuel + 1) ≤ D)
    (ih : ∀ (pc : PaddedCell) (b : R2Rect), pc.cell.path.length + fuel ≤ D →
      (getCellsRec idx ab fuel pc b).Pairwise (fun x y => idNum x.1 < idNum y.1)) :
    (clipVAxisF (getCellsRec idx ab fuel) ab eb v i pcell).Pairwise
      (fun x y => idNum x.1 < idNum y.1) := by
  have hlc : pcell.cell.path.length < D := by omega
  have hchildlen : ∀ j : Fin 2, (childPC pcell i j).cell.path.length + fuel ≤ D := by
    intro j
    simp only [childPC, childCell, List.length_append, List.length_singleton]
    omega
  have hdis := child_range_disjoint pcell.cell (posIJ i 0) (posIJ i 1) (posIJ_lt i) hlc
  unfold clipVAxisF
  split
  · exact ih _ _ (hchildlen 0)
  · split
    · exact ih _ _ (hchildlen 1)
    · refine List.pairwise_append.mpr ⟨ih _ _ (hchildlen 0), ih _ _ (hchildlen 1), ?_⟩
      intro x hx y hy
      have hxb := getCellsRec_key_bounds idx ab fuel (childPC pcell i 0) _ x hx (hchildlen 0)
      have hyb := getCellsRec_key_bounds idx ab fuel (childPC pcell i 1) _ y hy (hchildlen 1)
      simp only [childPC] at hxb hyb
      calc idNum x.1 ≤ rangeMaxN (childCell pcell.cell (posIJ i 0)) := hxb.2
        _ < rangeMinN (childCell pcell.cell (posIJ i 1)) := hdis
        _ ≤ idNum y.1 := hyb.1

theorem getCellsRec_pairwise (idx : List Entry) (ab : R2Point × R2Point) :
    ∀ (fuel : ℕ) (pcell : PaddedCell) (eb : R2Rect),
      pcell.cell.path.length + fuel ≤ D →
      (getCellsRec idx ab fuel pcell eb).Pairwise (fun x y => idNum x.1 < idNum y.1) := by
  intro fuel
  induction fuel with
  | zero =>
    intro pcell eb _
    rw [getCellsRec_zero]
    unfold getCellsStep
    cases seek idx (rangeMinN pcell.cell)
    · simp
    · dsimp only
      split
      · simp
      · split <;> simp
  | succ fuel ih =>
    intro pcell eb hl
    have hlc : pcell.cell.path.length < D := by omega
    have hchildlen : ∀ p : Fin 4, (childCell pcell.cell p).path.length + fuel ≤ D := by
      intro p
      simp only [childCell, List.length_append, List.length_singleton]
      omega
    rw [getCellsRec_succ]
    unfold getCellsStep
    cases seek idx (rangeMinN pcell.cell)
    · simp
    · dsimp only
      split
      · simp
      · split
        · simp
        · split
          · exact clipVAxisF_pairwise idx ab fuel pcell eb _ 0 hl ih
          · split
            · exact clipVAxisF_pairwise idx ab fuel pcell eb _ 1 hl ih
            · have hcross : ∀ (j j2 : Fin 2) (b b2 : R2Rect),
                  ∀ x ∈ getCellsRec idx ab fuel (childPC pcell 0 j) b,
                  ∀ y ∈ getCellsRec idx ab fuel (childPC pcell 1 j2) b2,
                  idNum x.1 < idNum y.1 := by
                intro j j2 b b2 x hx y hy
                have hxb := getCellsRec_key_bounds idx ab fuel (childPC pcell 0 j) b x hx
                  (by simp only [childPC, childCell, List.length_append,
                        List.length_singleton]; omega)
                have hyb := getCellsRec_key_bounds idx ab fuel (childPC pcell 1 j2) b2 y hy
                  (by simp only [childPC, childCell, List.length_append,
                        List.length_singleton]; omega)
                simp only [childPC] at hxb hyb
                have hdis := child_range_disjoint pcell.cell (posIJ 0 j) (posIJ 1 j2)
                  (posIJ_cross j j2) hlc
                calc idNum x.1 ≤ rangeMaxN (childCell pcell.cell (posIJ 0 j)) := hxb.2
                  _ < rangeMinN (childCell pcell.cell (posIJ 1 j2)) := hdis
                  _ ≤ idNum y.1 := hyb.1
              split
              · refine List.pairwise_append.mpr
                  ⟨ih _ _ (hchildlen (posIJ 0 0)), ih _ _ (hchildlen (posIJ 1 0)), ?_⟩
                intro x hx y hy
                exact hcross 0 0 _ _ x hx y hy
              · split
                · refine List.pairwise_append.mpr
                    ⟨ih _ _ (hchildlen (posIJ 0 1)), ih _ _ (hchildlen (posIJ 1 1)), ?_⟩
                  intro x hx y hy
                  exact hcross 1 1 _ _ x hx y hy
                · refine List.pairwise_append.mpr
                    ⟨clipVAxisF_pairwise idx ab fuel pcell _ _ 0 hl ih,
                     clipVAxisF_pairwise idx ab fuel pcell _ _ 1 hl ih, ?_⟩
                  intro x hx y hy
                  rcases mem_clipVAxisF hx with ⟨b, hb⟩ | ⟨b, hb⟩ <;>
                    rcases mem_clipVAxisF hy with ⟨b2, hb2⟩ | ⟨b2, hb2⟩
                  · exact hcross 0 0 b b2 x hb y hb2
                  · exact hcross 0 1 b b2 x hb y hb2
                  · exact hcross 1 0 b b2 x hb y hb2
                  · exact hcross 1 1 b b2 x hb y hb2

end CellRangeLemmas

/-- C10: for every call to the root-seeded cell-only query that reports cells,
each index cell appears at most once in the returned cell list: the four
child quadrants of any padded cell have pairwise-disjoint id ranges and each
is recursed into at most once per step, and a stored cell is recorded only
when the cursor id equals the current cell's id, so no stored cell can be
recorded twice under a single root. -/
theorem getCellsRootQ_cells_distinct (idx : List Entry)
    (clip : Option (R2Point × R2Point)) (root : PaddedCell) (out : List Entry)
    (hroot : root.cell.path.length ≤ D)
    (ht : (getCellsRootQ idx clip root out).1 = true) :
    ((getCellsRootQ idx clip root out).2).Pairwise (fun x y => idNum x.1 ≠ idNum y.1) := by
  unfold getCellsRootQ at ht ⊢
  by_cases hemp : (getCellsFromRoot idx clip root).isEmpty
  · rw [if_pos hemp] at ht
    cases ht
  · rw [if_neg hemp]
    have hpw : (getCellsFromRoot idx clip root).Pairwise
        (fun x y => idNum x.1 < idNum y.1) := by
      unfold getCellsFromRoot
      cases clip with
      | none => simp
      | some ab =>
        dsimp only
        split
        · exact getCellsRec_pairwise idx ab (D - root.cell.path.length) root _ (by omega)
        · simp
    exact hpw.imp (fun h => Nat.ne_of_lt h)

theorem getCellsRootQ_cells_distinct_witness :
    ((getCellsRootQ [(⟨0, [0]⟩, [(0, [1])]), (⟨0, [3]⟩, [(0, [7])])]
        (some ((-1, -1), (1, 1))) (faceCellPC 0) []).2).Pairwise
      (fun x y => idNum x.1 ≠ idNum y.1) :=
  getCellsRootQ_cells_distinct [(⟨0, [0]⟩, [(0, [1])]), (⟨0, [3]⟩, [(0, [7])])]
    (some ((-1, -1), (1, 1))) (faceCellPC 0) [] (by decide) (by decide)

end S2
